import Mathlib

/-!
Verification of the text-substitution script `fix-mocks.py`.

The script reads one hardcoded file, applies two literal substring
replacements in sequence (Python `str.replace`, i.e. leftmost-to-right
non-overlapping replacement of every occurrence), writes the result back
to the same path and prints a single success line.

We model Python strings as `List Char` (wrapped in Lean `String`), the
`str.replace` method as `replaceList`, and the script's interaction with
the file system as a function from a file-system map (path to optional
content) to a result record.
-/

namespace FixMocks

/-- Model of Python `str.replace self old new` on character lists for a
nonempty `old`: scan left to right; at each position, if the search list
is a prefix of the remaining text, emit the replacement and continue
scanning immediately after the matched occurrence (not inside the emitted
replacement); otherwise emit one character and continue.  Python's
behaviour for an empty search string (interleaving the replacement at
every boundary) is not modelled; the script only uses nonempty search
strings, and for the degenerate empty pattern we return the text
unchanged. -/
def replaceList : List Char → List Char → List Char → List Char
  | _, _, [] => []
  | [], _, t => t
  | a :: s', r, c :: cs =>
    if (a :: s').isPrefixOf (c :: cs) then
      r ++ replaceList (a :: s') r (cs.drop s'.length)
    else
      c :: replaceList (a :: s') r cs
termination_by _ _ t => t.length
decreasing_by
  · simp only [List.length_drop, List.length_cons]; omega
  · simp only [List.length_cons]; omega

/-- Model of Python `t.replace(s, r)` on Lean strings. -/
def pyReplace (t s r : String) : String :=
  ⟨replaceList s.data r.data t.data⟩

/-- Hardcoded target path of the script (line 3 of `fix-mocks.py`). -/
def filepath : String :=
  "d:\\React JS\\UIDAM-React\\uidam-ecsp\\uidam-portal-padmaja\\src\\features\\user-management\\UserManagement.test.tsx"

/-- First search string (line 9 of the script). -/
def searchCamel : String := "mockFilterUsersV2"

/-- Second search string (line 10 of the script). -/
def searchLower : String := "mockfilterUsersV2"

/-- Common replacement string of both rules (lines 9 and 10). -/
def replacement : String := "(UserService.filterUsersV2 as jest.Mock)"

/-- The script's ordered rule list. -/
def rules : List (String × String) :=
  [(searchCamel, replacement), (searchLower, replacement)]

/-- Sequential application of an ordered list of replacement rules: the
result of each rule is the input of the next (the spec's `patch`). -/
def patch (t : String) (rs : List (String × String)) : String :=
  rs.foldl (fun acc ab => pyReplace acc ab.1 ab.2) t

/-- The full text transformation performed by the script body
(lines 9 and 10): both rules applied in declaration order. -/
def fixMocks (t : String) : String := patch t rules

/-- Message printed on line 15 of the script. -/
def successMessage : String := "Successfully replaced all mock references"

/-- Result of one run of the script: the final file-system map, the lines
written to standard output, and whether the run completed without
raising. -/
structure RunResult where
  fs : String → Option String
  stdout : List String
  ok : Bool

/-- Model of the whole script run against a file system (a map from path
to optional text content).  Opening a missing file raises, which
propagates uncaught: nothing is written and nothing is printed.
Otherwise the script reads the content, transforms it, overwrites the
file at the same path in full, and prints the single success line. -/
def runScript (fs : String → Option String) : RunResult :=
  match fs filepath with
  | none => ⟨fs, [], false⟩
  | some content =>
      ⟨fun p => if p = filepath then some (fixMocks content) else fs p,
       [successMessage], true⟩

/- Character-list versions of the script's constants, used throughout the
proofs. -/

/-- Character list of the first search string. -/
def camel : List Char := searchCamel.data

/-- Character list of the second search string. -/
def lower : List Char := searchLower.data

/-- Character list of the replacement string. -/
def repl : List Char := replacement.data

/-! ### General toolkit about prefixes, suffixes and infixes -/

/-- Every list has the empty list as a prefix. -/
lemma nilPrefixOf {α : Type} (l : List α) : [] <+: l := ⟨l, rfl⟩

/-- A take of a list is a prefix of it. -/
lemma takePrefixOf {α : Type} (n : ℕ) (l : List α) : l.take n <+: l :=
  ⟨l.drop n, List.take_append_drop n l⟩

/-- A prefix of an append is either a prefix of the left part, or the left
part followed by a prefix of the right part. -/
lemma prefixOfAppendSplit {α : Type} {u x y : List α} (h : u <+: x ++ y) :
    u <+: x ∨ ∃ u2, u = x ++ u2 ∧ u2 <+: y := by
  obtain ⟨t, ht⟩ := h
  by_cases hl : u.length ≤ x.length
  · left
    have h1 : (u ++ t).take u.length = u := List.take_left' rfl
    have h2 : (x ++ y).take u.length = x.take u.length := by
      rw [List.take_append_eq_append_take, Nat.sub_eq_zero_of_le hl,
        List.take_zero, List.append_nil]
    have h3 := congrArg (List.take u.length) ht
    rw [h1, h2] at h3
    exact List.prefix_iff_eq_take.mpr h3
  · right
    push_neg at hl
    refine ⟨u.drop x.length, ?_, ?_⟩
    · have h1 : (u ++ t).take x.length = u.take x.length := by
        rw [List.take_append_eq_append_take, Nat.sub_eq_zero_of_le (Nat.le_of_lt hl),
          List.take_zero, List.append_nil]
      have h2 : (x ++ y).take x.length = x := List.take_left x y
      have hx : u.take x.length = x := by rw [← h1, ht, h2]
      have hsplit := List.take_append_drop x.length u
      rw [hx] at hsplit
      exact hsplit.symm
    · have h1 : (u ++ t).drop x.length = u.drop x.length ++ t := by
        rw [List.drop_append_eq_append_drop, Nat.sub_eq_zero_of_le (Nat.le_of_lt hl),
          List.drop_zero]
      have h2 : (x ++ y).drop x.length = y := List.drop_left x y
      exact ⟨t, by rw [← h1, ht, h2]⟩

/-- An infix of an append is an infix of one of the parts, or splits into
a nonempty suffix of the left part followed by a nonempty prefix of the
right part. -/
lemma infixOfAppendSplit {α : Type} {u x y : List α} (h : u <:+: x ++ y) :
    u <:+: x ∨ u <:+: y ∨
      ∃ u1 u2, u = u1 ++ u2 ∧ u1 ≠ [] ∧ u2 ≠ [] ∧ u1 <:+ x ∧ u2 <+: y := by
  obtain ⟨p, q, hpq⟩ := h
  by_cases h1 : p.length + u.length ≤ x.length
  · left
    have hTake : (p ++ u ++ q).take (p.length + u.length) = p ++ u := by
      rw [List.take_append_eq_append_take]
      have : (p ++ u).length = p.length + u.length := List.length_append p u
      rw [List.take_of_length_le (le_of_eq this), this, Nat.sub_self, List.take_zero,
        List.append_nil]
    have hTake2 : (x ++ y).take (p.length + u.length) = x.take (p.length + u.length) := by
      rw [List.take_append_eq_append_take, Nat.sub_eq_zero_of_le h1, List.take_zero,
        List.append_nil]
    have hx : p ++ u = x.take (p.length + u.length) := by
      rw [← hTake, hpq, hTake2]
    refine ⟨p, x.drop (p.length + u.length), ?_⟩
    have hsplit := List.take_append_drop (p.length + u.length) x
    rw [← hx] at hsplit
    exact hsplit
  · by_cases h2 : x.length ≤ p.length
    · right; left
      have hpq' : p ++ (u ++ q) = x ++ y := by rw [← List.append_assoc]; exact hpq
      have hDrop : (p ++ (u ++ q)).drop x.length = p.drop x.length ++ (u ++ q) := by
        rw [List.drop_append_eq_append_drop, Nat.sub_eq_zero_of_le h2, List.drop_zero]
      have hDrop2 : (x ++ y).drop x.length = y := List.drop_left x y
      refine ⟨p.drop x.length, q, ?_⟩
      rw [List.append_assoc]
      rw [← hDrop2, ← hpq', hDrop]
    · right; right
      push_neg at h1 h2
      set k := x.length - p.length with hk
      have hk1 : 0 < k := by omega
      have hk2 : k < u.length := by omega
      refine ⟨u.take k, u.drop k, (List.take_append_drop k u).symm, ?_, ?_, ?_, ?_⟩
      · intro hnil
        have := congrArg List.length hnil
        simp only [List.length_take, List.length_nil] at this
        omega
      · intro hnil
        have := congrArg List.length hnil
        simp only [List.length_drop, List.length_nil] at this
        omega
      · have hpq' : p ++ (u ++ q) = x ++ y := by rw [← List.append_assoc]; exact hpq
        have hTake : (p ++ (u ++ q)).take x.length = p ++ u.take k := by
          rw [List.take_append_eq_append_take, List.take_of_length_le (Nat.le_of_lt h2),
            ← hk, List.take_append_eq_append_take, Nat.sub_eq_zero_of_le (Nat.le_of_lt hk2),
            List.take_zero, List.append_nil]
        have hTake2 : (x ++ y).take x.length = x := List.take_left x y
        exact ⟨p, by rw [← hTake2, ← hpq', hTake]⟩
      · have hpq' : p ++ (u ++ q) = x ++ y := by rw [← List.append_assoc]; exact hpq
        have hDrop : (p ++ (u ++ q)).drop x.length = u.drop k ++ q := by
          rw [List.drop_append_eq_append_drop, List.drop_eq_nil_of_le (Nat.le_of_lt h2),
            List.nil_append, ← hk, List.drop_append_eq_append_drop,
            Nat.sub_eq_zero_of_le (Nat.le_of_lt hk2), List.drop_zero]
        have hDrop2 : (x ++ y).drop x.length = y := List.drop_left x y
        exact ⟨q, by rw [← hDrop2, ← hpq', hDrop]⟩

/-- A nonempty suffix of a list ending in `x` contains `x`. -/
lemma memOfSuffixConcat {α : Type} {u A : List α} {x : α} (hne : u ≠ [])
    (h : u <:+ A ++ [x]) : x ∈ u := by
  obtain ⟨w, hw⟩ := h
  rcases List.eq_nil_or_concat u with rfl | ⟨u', y, rfl⟩
  · exact absurd rfl hne
  · rw [List.concat_eq_append, ← List.append_assoc] at hw
    have := ( List.append_inj' hw (by simp)).2
    simp only [List.cons.injEq] at this
    simp [List.concat_eq_append, this.1]

/-- A nonempty prefix of a list beginning with `x` contains `x`. -/
lemma memOfPrefixCons {α : Type} {u B : List α} {x : α} (hne : u ≠ [])
    (h : u <+: x :: B) : x ∈ u := by
  cases u with
  | nil => exact absurd rfl hne
  | cons e u' =>
    have := ( List.cons_prefix_cons.mp h).1
    simp [this]

/-- A prefix of a list is an infix of it. -/
lemma infixOfPrefixOf {α : Type} {u t : List α} (h : u <+: t) : u <:+: t := by
  obtain ⟨w, hw⟩ := h
  exact ⟨[], w, by simp [hw]⟩

/-- A suffix of a list is an infix of it. -/
lemma infixOfSuffixOf {α : Type} {u t : List α} (h : u <:+ t) : u <:+: t := by
  obtain ⟨w, hw⟩ := h
  exact ⟨w, [], by simp [hw]⟩

/-! ### Basic equations of `replaceList` -/

/-- Replacement in the empty text gives the empty text. -/
lemma replaceList_nil (s r : List Char) : replaceList s r [] = [] := by
  cases s <;> simp [replaceList]

/-- Unfolding equation of `replaceList` on a nonempty text and nonempty
search string. -/
lemma replaceList_cons (a : Char) (s' r : List Char) (c : Char) (cs : List Char) :
    replaceList (a :: s') r (c :: cs) =
      if (a :: s').isPrefixOf (c :: cs) then
        r ++ replaceList (a :: s') r (cs.drop s'.length)
      else
        c :: replaceList (a :: s') r cs := by
  simp [replaceList]

/-- When the search string is a prefix of the text, `replaceList` emits
the replacement and continues after the matched occurrence. -/
lemma replaceList_matched {s r y : List Char} (hs : s ≠ []) :
    replaceList s r (s ++ y) = r ++ replaceList s r y := by
  cases s with
  | nil => exact absurd rfl hs
  | cons a s' =>
    rw [List.cons_append, replaceList_cons]
    have hp : (a :: s') <+: (a :: s') ++ y := List.prefix_append _ _
    rw [List.cons_append] at hp
    rw [if_pos (by simp only [ List.isPrefixOf_iff_prefix]; exact hp),
      List.drop_left' (by simp)]

/-- When the search string is not a prefix of the text, `replaceList`
emits one character and continues. -/
lemma replaceList_not_matched {s r : List Char} {c : Char} {cs : List Char}
    (h : ¬ s <+: c :: cs) (hs : s ≠ []) :
    replaceList s r (c :: cs) = c :: replaceList s r cs := by
  cases s with
  | nil => exact absurd rfl hs
  | cons a s' =>
    rw [replaceList_cons, if_neg (by simpa using h)]

/-- If the search string does not occur in the text, replacement is the
identity. -/
lemma replaceList_no_occ {s r : List Char} : ∀ {t : List Char},
    ¬ s <:+: t → replaceList s r t = t := by
  intro t
  induction t with
  | nil => intro _; exact replaceList_nil s r
  | cons c cs ih =>
    intro h
    have hs : s ≠ [] := by
      rintro rfl
      exact h ⟨[], c :: cs, rfl⟩
    have hp : ¬ s <+: c :: cs := fun hp => h (infixOfPrefixOf hp)
    rw [replaceList_not_matched hp hs, ih (fun hi => h (List.infix_cons hi))]

/-- Degenerate case of the model: an empty search string leaves the text
unchanged (the script never uses an empty search string). -/
lemma replaceList_nil_search (r : List Char) (c : Char) (cs : List Char) :
    replaceList [] r (c :: cs) = c :: cs := by
  simp [replaceList]

/-- Block condition: no match of the search string `s` can begin strictly
inside the block `a` — neither fully inside it nor running past its right
end — regardless of what text follows `a`. -/
def noMatchWithin (s a : List Char) : Prop :=
  ∀ k, k < a.length → ¬ s <+: a.drop k ∧ ¬ a.drop k <+: s

instance (s a : List Char) : Decidable (noMatchWithin s a) := by
  unfold noMatchWithin; infer_instance

/-- If no match of `s` can begin inside the block `a`, replacement copies
`a` verbatim and continues in the rest of the text. -/
lemma replaceList_append_of_noMatch (s r : List Char) :
    ∀ (a b : List Char), noMatchWithin s a →
      replaceList s r (a ++ b) = a ++ replaceList s r b := by
  intro a
  induction a with
  | nil => intro b _; simp
  | cons c a' ih =>
    intro b h
    have h0 := h 0 (by simp)
    simp only [List.drop_zero] at h0
    have hs : s ≠ [] := by
      rintro rfl
      exact h0.1 (nilPrefixOf _)
    have hnot : ¬ s <+: c :: (a' ++ b) := by
      intro hp
      rw [← List.cons_append] at hp
      rcases prefixOfAppendSplit hp with h1 | ⟨u2, hu2, _⟩
      · exact h0.1 h1
      · exact h0.2 ⟨u2, hu2.symm⟩
    have ha' : noMatchWithin s a' := by
      intro k hk
      have := h (k + 1) (by simp only [List.length_cons]; omega)
      simpa using this
    rw [List.cons_append, replaceList_not_matched hnot hs, ih b ha',
      List.cons_append]

/-- When the replacement string starts with a character `ch`, any prefix
of the output of `replaceList` avoiding `ch` is already a prefix of the
input text. -/
lemma prefixOfReplace (s r : List Char) (ch : Char) (hr : ∃ B, r = ch :: B) :
    ∀ (t x : List Char), ch ∉ x → x <+: replaceList s r t → x <+: t := by
  rcases s with _ | ⟨a, s'⟩
  · intro t x _ hpre
    cases t with
    | nil => rw [replaceList_nil] at hpre; exact hpre
    | cons c cs => rw [replaceList_nil_search] at hpre; exact hpre
  · intro t
    induction t with
    | nil =>
      intro x _ hpre
      rw [replaceList_nil] at hpre
      exact hpre
    | cons c cs ih =>
      intro x hx hpre
      by_cases hm : (a :: s') <+: c :: cs
      · obtain ⟨y, hy⟩ := hm
        rw [← hy, replaceList_matched (by simp)] at hpre
        cases x with
        | nil => exact nilPrefixOf _
        | cons e x' =>
          obtain ⟨B, rfl⟩ := hr
          rw [List.cons_append] at hpre
          have he := ( List.cons_prefix_cons.mp hpre).1
          exact absurd (by simp [he] : ch ∈ e :: x') hx
      · rw [replaceList_not_matched hm (by simp)] at hpre
        cases x with
        | nil => exact nilPrefixOf _
        | cons e x' =>
          obtain ⟨he, hx'⟩ := List.cons_prefix_cons.mp hpre
          have hrec := ih x' (fun hmem => hx (by simp [hmem])) hx'
          exact List.cons_prefix_cons.mpr ⟨he, hrec⟩

/-- Key occurrence-elimination property: the replacement string is
bracketed by two characters that the (nonempty) search string does not
contain and does not itself contain the search string, so after
`replaceList` no occurrence of the search string remains in the output,
whatever the input text was. -/
lemma replace_no_self (s r : List Char) (chL chR : Char)
    (hs : s ≠ []) (hsr : ¬ s <:+: r) (hrsh : ∃ A, r = chL :: A ++ [chR])
    (hL : chL ∉ s) (hR : chR ∉ s) :
    ∀ t, ¬ s <:+: replaceList s r t := by
  obtain ⟨A, hA⟩ := hrsh
  have hA' : r = (chL :: A) ++ [chR] := by rw [hA]
  have main : ∀ n (t : List Char), t.length ≤ n → ¬ s <:+: replaceList s r t := by
    intro n
    induction n with
    | zero =>
      intro t ht
      have ht0 : t = [] := List.eq_nil_of_length_eq_zero (Nat.le_zero.mp ht)
      subst ht0
      rw [replaceList_nil]
      intro hinf
      exact hs (List.eq_nil_of_infix_nil hinf)
    | succ n ih =>
      intro t ht
      cases t with
      | nil =>
        rw [replaceList_nil]
        intro hinf
        exact hs (List.eq_nil_of_infix_nil hinf)
      | cons c cs =>
        simp only [List.length_cons] at ht
        by_cases hm : s <+: c :: cs
        · obtain ⟨y, hy⟩ := hm
          rw [← hy, replaceList_matched hs]
          intro hinf
          rcases infixOfAppendSplit hinf with h | h | ⟨u1, u2, hu, h1ne, _, hsuf, _⟩
          · exact hsr h
          · refine ih y ?_ h
            have hlen := congrArg List.length hy
            simp only [List.length_append, List.length_cons] at hlen
            have hslen : 0 < s.length := List.length_pos.mpr hs
            omega
          · rw [hA'] at hsuf
            have hmem : chR ∈ u1 := memOfSuffixConcat h1ne hsuf
            rw [hu] at hR
            exact hR (List.mem_append_left _ hmem)
        · rw [replaceList_not_matched hm hs]
          intro hinf
          rcases List.infix_cons_iff.mp hinf with hpre | hinf'
          · cases hscase : s with
            | nil => exact hs hscase
            | cons e s' =>
              subst hscase
              obtain ⟨he, hs'⟩ := List.cons_prefix_cons.mp hpre
              have hsub : s' <+: cs :=
                prefixOfReplace (e :: s') r chL ⟨A ++ [chR], hA⟩ cs s'
                  (fun hmem => hL (by simp [hmem])) hs'
              exact hm (List.cons_prefix_cons.mpr ⟨he, hsub⟩)
          · exact ih cs (by omega) hinf'
  intro t
  exact main t.length t le_rfl

/-- Replacement cannot create an occurrence of a string `u` that avoids
the two bracketing characters of the replacement, does not occur in the
replacement, and did not occur in the input text. -/
lemma replace_no_new (s r u : List Char) (chL chR : Char)
    (hs : s ≠ []) (hu : u ≠ []) (hur : ¬ u <:+: r)
    (hrsh : ∃ A, r = chL :: A ++ [chR]) (hL : chL ∉ u) (hR : chR ∉ u) :
    ∀ t, ¬ u <:+: t → ¬ u <:+: replaceList s r t := by
  obtain ⟨A, hA⟩ := hrsh
  have hA' : r = (chL :: A) ++ [chR] := by rw [hA]
  have main : ∀ n (t : List Char), t.length ≤ n → ¬ u <:+: t →
      ¬ u <:+: replaceList s r t := by
    intro n
    induction n with
    | zero =>
      intro t ht _
      have ht0 : t = [] := List.eq_nil_of_length_eq_zero (Nat.le_zero.mp ht)
      subst ht0
      rw [replaceList_nil]
      intro hinf
      exact hu (List.eq_nil_of_infix_nil hinf)
    | succ n ih =>
      intro t ht hnt
      cases t with
      | nil =>
        rw [replaceList_nil]
        intro hinf
        exact hu (List.eq_nil_of_infix_nil hinf)
      | cons c cs =>
        simp only [List.length_cons] at ht
        by_cases hm : s <+: c :: cs
        · obtain ⟨y, hy⟩ := hm
          rw [← hy] at hnt ⊢
          rw [replaceList_matched hs]
          intro hinf
          rcases infixOfAppendSplit hinf with h | h | ⟨u1, u2, hu2, h1ne, _, hsuf, _⟩
          · exact hur h
          · have hny : ¬ u <:+: y :=
              fun hy' => hnt (hy'.trans (infixOfSuffixOf ⟨s, rfl⟩))
            refine ih y ?_ hny h
            have hlen := congrArg List.length hy
            simp only [List.length_append, List.length_cons] at hlen
            have hslen : 0 < s.length := List.length_pos.mpr hs
            omega
          · rw [hA'] at hsuf
            have hmem : chR ∈ u1 := memOfSuffixConcat h1ne hsuf
            rw [hu2] at hR
            exact hR (List.mem_append_left _ hmem)
        · rw [replaceList_not_matched hm hs]
          intro hinf
          rcases List.infix_cons_iff.mp hinf with hpre | hinf'
          · cases hucase : u with
            | nil => exact hu hucase
            | cons e u' =>
              subst hucase
              obtain ⟨he, hu'⟩ := List.cons_prefix_cons.mp hpre
              have hsub : u' <+: cs :=
                prefixOfReplace s r chL ⟨A ++ [chR], hA⟩ cs u'
                  (fun hmem => hL (by simp [hmem])) hu'
              exact hnt (infixOfPrefixOf (List.cons_prefix_cons.mpr ⟨he, hsub⟩))
          · exact ih cs (by omega) (fun h => hnt (List.infix_cons h)) hinf'
  intro t
  exact main t.length t le_rfl

/-! ### Simultaneous two-pattern replacement (proof device for C3, C10) -/

/-- Simultaneous left-to-right replacement with two search strings
sharing one replacement: at each position the first search string is
tried, then the second; on a match the replacement is emitted and the
scan continues after the matched occurrence.  This is only a proof
device; the script itself performs two sequential passes. -/
def replace2 (s1 s2 r : List Char) : List Char → List Char
  | [] => []
  | c :: cs =>
    if s1 <+: c :: cs then r ++ replace2 s1 s2 r (cs.drop (s1.length - 1))
    else if s2 <+: c :: cs then r ++ replace2 s1 s2 r (cs.drop (s2.length - 1))
    else c :: replace2 s1 s2 r cs
termination_by t => t.length
decreasing_by
  all_goals simp only [List.length_drop, List.length_cons]
  all_goals omega

/-- Simultaneous replacement of the empty text. -/
lemma replace2_nil (s1 s2 r : List Char) : replace2 s1 s2 r [] = [] := by
  simp [replace2]

/-- Unfolding equation of `replace2` on a nonempty text. -/
lemma replace2_cons (s1 s2 r : List Char) (c : Char) (cs : List Char) :
    replace2 s1 s2 r (c :: cs) =
      if s1 <+: c :: cs then r ++ replace2 s1 s2 r (cs.drop (s1.length - 1))
      else if s2 <+: c :: cs then r ++ replace2 s1 s2 r (cs.drop (s2.length - 1))
      else c :: replace2 s1 s2 r cs := by
  simp only [replace2]

/-- A match of the first search string at the head of the text. -/
lemma replace2_matched1 {s1 : List Char} (s2 r : List Char) {y : List Char}
    (hs : s1 ≠ []) :
    replace2 s1 s2 r (s1 ++ y) = r ++ replace2 s1 s2 r y := by
  cases s1 with
  | nil => exact absurd rfl hs
  | cons a s1' =>
    rw [List.cons_append, replace2_cons]
    have hp : (a :: s1') <+: (a :: s1') ++ y := List.prefix_append _ _
    rw [List.cons_append] at hp
    rw [if_pos hp]
    simp only [List.length_cons, Nat.succ_sub_one]
    rw [List.drop_left' (by simp)]

/-- A match of the second search string at the head of the text, when the
first search string does not match there. -/
lemma replace2_matched2 {s1 s2 : List Char} (r : List Char) {y : List Char}
    (hs : s2 ≠ []) (hno : ¬ s1 <+: s2 ++ y) :
    replace2 s1 s2 r (s2 ++ y) = r ++ replace2 s1 s2 r y := by
  cases s2 with
  | nil => exact absurd rfl hs
  | cons b s2' =>
    rw [List.cons_append] at hno ⊢
    rw [replace2_cons, if_neg hno]
    have hp : (b :: s2') <+: (b :: s2') ++ y := List.prefix_append _ _
    rw [List.cons_append] at hp
    rw [if_pos hp]
    simp only [List.length_cons, Nat.succ_sub_one]
    rw [List.drop_left' (by simp)]

/-- No match of either search string at the head of the text. -/
lemma replace2_not_matched {s1 s2 r : List Char} {c : Char} {cs : List Char}
    (h1 : ¬ s1 <+: c :: cs) (h2 : ¬ s2 <+: c :: cs) :
    replace2 s1 s2 r (c :: cs) = c :: replace2 s1 s2 r cs := by
  rw [replace2_cons, if_neg h1, if_neg h2]

/-- Main decomposition for C3: two sequential replacement passes agree
with one simultaneous pass, provided no match of the second search string
can begin inside the replacement, no match of the first search string can
begin inside the second search string, and the replacement starts with a
character that the second search string avoids. -/
lemma seq_eq_replace2 (s1 s2 r : List Char) (ch : Char)
    (h1 : s1 ≠ []) (h2 : s2 ≠ [])
    (hnmr : noMatchWithin s2 r) (hnms : noMatchWithin s1 s2)
    (hrh : ∃ B, r = ch :: B) (hch : ch ∉ s2) :
    ∀ t, replaceList s2 r (replaceList s1 r t) = replace2 s1 s2 r t := by
  have main : ∀ n (t : List Char), t.length ≤ n →
      replaceList s2 r (replaceList s1 r t) = replace2 s1 s2 r t := by
    intro n
    induction n with
    | zero =>
      intro t ht
      have ht0 : t = [] := List.eq_nil_of_length_eq_zero (Nat.le_zero.mp ht)
      subst ht0
      rw [replaceList_nil, replaceList_nil, replace2_nil]
    | succ n ih =>
      intro t ht
      cases t with
      | nil => rw [replaceList_nil, replaceList_nil, replace2_nil]
      | cons c cs =>
        simp only [List.length_cons] at ht
        by_cases hm1 : s1 <+: c :: cs
        · obtain ⟨y, hy⟩ := hm1
          have hylen : y.length ≤ n := by
            have hl := congrArg List.length hy
            simp only [List.length_append, List.length_cons] at hl
            have := List.length_pos.mpr h1
            omega
          rw [← hy, replaceList_matched h1,
            replaceList_append_of_noMatch s2 r r (replaceList s1 r y) hnmr,
            ih y hylen, replace2_matched1 s2 r h1]
        · by_cases hm2 : s2 <+: c :: cs
          · obtain ⟨y, hy⟩ := hm2
            have hylen : y.length ≤ n := by
              have hl := congrArg List.length hy
              simp only [List.length_append, List.length_cons] at hl
              have := List.length_pos.mpr h2
              omega
            rw [← hy] at hm1
            rw [← hy, replaceList_append_of_noMatch s1 r s2 y hnms,
              replaceList_matched h2, ih y hylen, replace2_matched2 r h2 hm1]
          · rw [replaceList_not_matched hm1 h1]
            have hnp : ¬ s2 <+: c :: replaceList s1 r cs := by
              intro hp
              have heq : c :: replaceList s1 r cs = replaceList s1 r (c :: cs) :=
                (replaceList_not_matched hm1 h1).symm
              rw [heq] at hp
              exact hm2 (prefixOfReplace s1 r ch hrh (c :: cs) s2 hch hp)
            rw [replaceList_not_matched hnp h2, ih cs (by omega),
              replace2_not_matched hm1 hm2]
  intro t
  exact main t.length t le_rfl

/-- The simultaneous pass is symmetric in its two search strings when
neither is a prefix of the other (so they never match at the same
position). -/
lemma replace2_swap (s1 s2 r : List Char)
    (h12 : ¬ s1 <+: s2) (h21 : ¬ s2 <+: s1) :
    ∀ t, replace2 s1 s2 r t = replace2 s2 s1 r t := by
  have h1 : s1 ≠ [] := by rintro rfl; exact h12 (nilPrefixOf _)
  have h2 : s2 ≠ [] := by rintro rfl; exact h21 (nilPrefixOf _)
  have main : ∀ n (t : List Char), t.length ≤ n →
      replace2 s1 s2 r t = replace2 s2 s1 r t := by
    intro n
    induction n with
    | zero =>
      intro t ht
      have ht0 : t = [] := List.eq_nil_of_length_eq_zero (Nat.le_zero.mp ht)
      subst ht0
      rw [replace2_nil, replace2_nil]
    | succ n ih =>
      intro t ht
      cases t with
      | nil => rw [replace2_nil, replace2_nil]
      | cons c cs =>
        simp only [List.length_cons] at ht
        by_cases hm1 : s1 <+: c :: cs
        · have hm2 : ¬ s2 <+: c :: cs := by
            intro hp
            rcases List.prefix_or_prefix_of_prefix hm1 hp with h | h
            · exact h12 h
            · exact h21 h
          obtain ⟨y, hy⟩ := hm1
          have hylen : y.length ≤ n := by
            have hl := congrArg List.length hy
            simp only [List.length_append, List.length_cons] at hl
            have := List.length_pos.mpr h1
            omega
          rw [← hy] at hm2
          rw [← hy, replace2_matched1 s2 r h1, replace2_matched2 r h1 hm2,
            ih y hylen]
        · by_cases hm2 : s2 <+: c :: cs
          · obtain ⟨y, hy⟩ := hm2
            have hylen : y.length ≤ n := by
              have hl := congrArg List.length hy
              simp only [List.length_append, List.length_cons] at hl
              have := List.length_pos.mpr h2
              omega
            rw [← hy] at hm1
            rw [← hy, replace2_matched2 r h2 hm1, replace2_matched1 s1 r h2,
              ih y hylen]
          · rw [replace2_not_matched hm1 hm2, replace2_not_matched hm2 hm1,
              ih cs (by omega)]
  intro t
  exact main t.length t le_rfl

/-! ### Concrete facts about the script's three literal strings -/

/-- The first search string is nonempty. -/
lemma camel_ne_nil : camel ≠ [] := by decide

/-- The second search string is nonempty. -/
lemma lower_ne_nil : lower ≠ [] := by decide

/-- The first search string does not occur in the replacement string. -/
lemma camel_not_in_repl : ¬ camel <:+: repl := by decide

/-- The second search string does not occur in the replacement string. -/
lemma lower_not_in_repl : ¬ lower <:+: repl := by decide

/-- The replacement string is bracketed by parentheses. -/
lemma repl_shape : ∃ A, repl = '(' :: A ++ [')'] :=
  ⟨"UserService.filterUsersV2 as jest.Mock".data, by decide⟩

/-- The replacement string starts with an opening parenthesis. -/
lemma repl_head : ∃ B, repl = '(' :: B :=
  ⟨"UserService.filterUsersV2 as jest.Mock)".data, by decide⟩

/-- No parenthesis occurs in the first search string. -/
lemma parenL_not_in_camel : '(' ∉ camel := by decide

/-- No parenthesis occurs in the first search string. -/
lemma parenR_not_in_camel : ')' ∉ camel := by decide

/-- No parenthesis occurs in the second search string. -/
lemma parenL_not_in_lower : '(' ∉ lower := by decide

/-- No parenthesis occurs in the second search string. -/
lemma parenR_not_in_lower : ')' ∉ lower := by decide

/-- Unfolding of the script's transformation to the character-list level:
first replace the camel-case variant, then the lower-case variant. -/
lemma fixMocks_data (t : String) :
    (fixMocks t).data = replaceList lower repl (replaceList camel repl t.data) := rfl

/-- After both replacement passes, no occurrence of the camel-case search
string remains. -/
lemma fixMocks_no_camel (t : List Char) :
    ¬ camel <:+: replaceList lower repl (replaceList camel repl t) :=
  replace_no_new lower repl camel '(' ')' lower_ne_nil camel_ne_nil
    camel_not_in_repl repl_shape parenL_not_in_camel parenR_not_in_camel _
    (replace_no_self camel repl '(' ')' camel_ne_nil camel_not_in_repl
      repl_shape parenL_not_in_camel parenR_not_in_camel t)

/-- After both replacement passes, no occurrence of the lower-case search
string remains. -/
lemma fixMocks_no_lower (t : List Char) :
    ¬ lower <:+: replaceList lower repl (replaceList camel repl t) :=
  replace_no_self lower repl '(' ')' lower_ne_nil lower_not_in_repl
    repl_shape parenL_not_in_lower parenR_not_in_lower _

/-- The transformation fixes any text in which neither search string
occurs. -/
lemma fixMocks_of_no_occ {T : String} (h1 : ¬ camel <:+: T.data)
    (h2 : ¬ lower <:+: T.data) : fixMocks T = T := by
  apply String.ext
  rw [fixMocks_data, replaceList_no_occ h1, replaceList_no_occ h2]

/-! ### Case-variant relation (C10) -/

/-- Relation between two texts that are identical except that some
occurrences of the camel-case search string in the first text are
written as the lower-case search string in the second text, at the same
positions (both search strings have length 17, so positions align). -/
inductive CaseVar : List Char → List Char → Prop
  | nil : CaseVar [] []
  | cons (c : Char) {t1 t2 : List Char} : CaseVar t1 t2 → CaseVar (c :: t1) (c :: t2)
  | mock {t1 t2 : List Char} : CaseVar t1 t2 → CaseVar (camel ++ t1) (lower ++ t2)

/-- No nonempty proper tail of the camel-case search string is a prefix
of the camel-case search string (its head character occurs only once). -/
lemma noOverlapCamelCamel :
    ∀ j, j < camel.length → 0 < j → ¬ camel.drop j <+: camel := by decide

/-- No nonempty proper tail of the camel-case search string is a prefix
of the lower-case search string. -/
lemma noOverlapCamelLower :
    ∀ j, j < camel.length → 0 < j → ¬ camel.drop j <+: lower := by decide

/-- No nonempty proper tail of the lower-case search string is a prefix
of the camel-case search string. -/
lemma noOverlapLowerCamel :
    ∀ j, j < camel.length → 0 < j → ¬ lower.drop j <+: camel := by decide

/-- No nonempty proper tail of the lower-case search string is a prefix
of the lower-case search string. -/
lemma noOverlapLowerLower :
    ∀ j, j < camel.length → 0 < j → ¬ lower.drop j <+: lower := by decide

/-- A prefix of a cons, with its first element removed, is a prefix of
the tail. -/
lemma dropOnePrefixOf {x : List Char} {c : Char} {a : List Char}
    (h : x <+: c :: a) : x.drop 1 <+: a := by
  cases x with
  | nil => exact nilPrefixOf a
  | cons e x' =>
    show x' <+: a
    exact ( List.cons_prefix_cons.mp h).2

/-- Rebuilding a prefix of a cons from the head match and a prefix of
another tail. -/
lemma headConsPrefixOf {x : List Char} {c : Char} {a b : List Char}
    (h1 : x <+: c :: a) (h2 : x.drop 1 <+: b) : x <+: c :: b := by
  cases x with
  | nil => exact nilPrefixOf _
  | cons e x' =>
    have he := ( List.cons_prefix_cons.mp h1).1
    exact List.cons_prefix_cons.mpr ⟨he, h2⟩

/-- Shifting a partial match over the case-variant relation, left to
right: if a tail `x.drop j` of a width-17 pattern `x` (that cannot
restart inside either search string) is a prefix of `a`, it is also a
prefix of the related `b`, and the texts after the match are still
related. -/
lemma caseVar_shiftL (x : List Char) (hxlen : x.length = camel.length)
    (hover : ∀ j, j < camel.length → 0 < j → ¬ x.drop j <+: camel) :
    ∀ {a b : List Char}, CaseVar a b → ∀ j, 0 < j → j ≤ camel.length →
      x.drop j <+: a →
      x.drop j <+: b ∧
        CaseVar (a.drop (camel.length - j)) (b.drop (camel.length - j)) := by
  intro a b hab
  induction hab with
  | nil =>
    intro j hj0 hjL hpre
    have hx0 : x.drop j = [] := List.prefix_nil.mp hpre
    have hlen0 := congrArg List.length hx0
    simp only [List.length_drop, List.length_nil] at hlen0
    have hjeq : j = camel.length := by omega
    subst hjeq
    exact ⟨hpre, by simpa using CaseVar.nil⟩
  | @cons c t1 t2 rel ih =>
    intro j hj0 hjL hpre
    by_cases hjeq : j = camel.length
    · subst hjeq
      have hx0 : x.drop camel.length = [] := List.drop_eq_nil_of_le (by omega)
      rw [hx0]
      exact ⟨nilPrefixOf _, by simpa using CaseVar.cons c rel⟩
    · have hjlt : j < camel.length := lt_of_le_of_ne hjL hjeq
      have hjx : j < x.length := by omega
      rw [List.drop_eq_getElem_cons hjx] at hpre
      obtain ⟨hc, htail⟩ := List.cons_prefix_cons.mp hpre
      obtain ⟨hpre2, hrel2⟩ := ih (j + 1) (by omega) (by omega) htail
      refine ⟨?_, ?_⟩
      · rw [List.drop_eq_getElem_cons hjx]
        exact List.cons_prefix_cons.mpr ⟨hc, hpre2⟩
      · have harith : camel.length - j = (camel.length - (j + 1)) + 1 := by omega
        rw [harith]
        simpa using hrel2
  | @mock t1 t2 rel ih =>
    intro j hj0 hjL hpre
    by_cases hjeq : j = camel.length
    · subst hjeq
      have hx0 : x.drop camel.length = [] := List.drop_eq_nil_of_le (by omega)
      rw [hx0]
      exact ⟨nilPrefixOf _, by simpa using CaseVar.mock rel⟩
    · have hjlt : j < camel.length := lt_of_le_of_ne hjL hjeq
      exfalso
      rcases prefixOfAppendSplit hpre with hp | ⟨u2, hu2, _⟩
      · exact hover j hjlt hj0 hp
      · have hlen2 := congrArg List.length hu2
        simp only [List.length_drop, List.length_append] at hlen2
        omega

/-- Shifting a partial match over the case-variant relation, right to
left: the mirror image of `caseVar_shiftL`, for matches found in the
second text. -/
lemma caseVar_shiftR (x : List Char) (hxlen : x.length = camel.length)
    (hover : ∀ j, j < camel.length → 0 < j → ¬ x.drop j <+: lower) :
    ∀ {a b : List Char}, CaseVar a b → ∀ j, 0 < j → j ≤ camel.length →
      x.drop j <+: b →
      x.drop j <+: a ∧
        CaseVar (a.drop (camel.length - j)) (b.drop (camel.length - j)) := by
  intro a b hab
  induction hab with
  | nil =>
    intro j hj0 hjL hpre
    have hx0 : x.drop j = [] := List.prefix_nil.mp hpre
    have hlen0 := congrArg List.length hx0
    simp only [List.length_drop, List.length_nil] at hlen0
    have hjeq : j = camel.length := by omega
    subst hjeq
    exact ⟨hpre, by simpa using CaseVar.nil⟩
  | @cons c t1 t2 rel ih =>
    intro j hj0 hjL hpre
    by_cases hjeq : j = camel.length
    · subst hjeq
      have hx0 : x.drop camel.length = [] := List.drop_eq_nil_of_le (by omega)
      rw [hx0]
      exact ⟨nilPrefixOf _, by simpa using CaseVar.cons c rel⟩
    · have hjlt : j < camel.length := lt_of_le_of_ne hjL hjeq
      have hjx : j < x.length := by omega
      rw [List.drop_eq_getElem_cons hjx] at hpre
      obtain ⟨hc, htail⟩ := List.cons_prefix_cons.mp hpre
      obtain ⟨hpre2, hrel2⟩ := ih (j + 1) (by omega) (by omega) htail
      refine ⟨?_, ?_⟩
      · rw [List.drop_eq_getElem_cons hjx]
        exact List.cons_prefix_cons.mpr ⟨hc, hpre2⟩
      · have harith : camel.length - j = (camel.length - (j + 1)) + 1 := by omega
        rw [harith]
        simpa using hrel2
  | @mock t1 t2 rel ih =>
    intro j hj0 hjL hpre
    by_cases hjeq : j = camel.length
    · subst hjeq
      have hx0 : x.drop camel.length = [] := List.drop_eq_nil_of_le (by omega)
      rw [hx0]
      exact ⟨nilPrefixOf _, by simpa using CaseVar.mock rel⟩
    · have hjlt : j < camel.length := lt_of_le_of_ne hjL hjeq
      exfalso
      rcases prefixOfAppendSplit hpre with hp | ⟨u2, hu2, _⟩
      · exact hover j hjlt hj0 hp
      · have hlen2 := congrArg List.length hu2
        simp only [List.length_drop, List.length_append] at hlen2
        have e1 : camel.length = 17 := by decide
        have e2 : lower.length = 17 := by decide
        omega

/-- The simultaneous pass does not distinguish case-variant texts: each
related position either matches the camel-case search string in the
first text and the lower-case one in the second (same replacement, same
width), or matches identically in both. -/
lemma caseVar_replace2 :
    ∀ {t1 t2 : List Char}, CaseVar t1 t2 →
      replace2 camel lower repl t1 = replace2 camel lower repl t2 := by
  have e1 : camel.length = 17 := by decide
  have e2 : lower.length = 17 := by decide
  have main : ∀ n (t1 t2 : List Char), t1.length ≤ n → CaseVar t1 t2 →
      replace2 camel lower repl t1 = replace2 camel lower repl t2 := by
    intro n
    induction n with
    | zero =>
      intro t1 t2 ht hcv
      cases hcv with
      | nil => rfl
      | cons c rel =>
        exfalso
        simp only [List.length_cons] at ht
        omega
      | mock rel =>
        exfalso
        simp only [List.length_append] at ht
        omega
    | succ n ih =>
      intro t1 t2 ht hcv
      cases hcv with
      | nil => rfl
      | @cons c a b rel =>
        simp only [List.length_cons] at ht
        by_cases hm1 : camel <+: c :: a
        · have hdrop1 : camel.drop 1 <+: a := dropOnePrefixOf hm1
          obtain ⟨hpre2, hrel2⟩ :=
            caseVar_shiftL camel rfl noOverlapCamelCamel rel 1 one_pos (by decide) hdrop1
          have hm1b : camel <+: c :: b := headConsPrefixOf hm1 hpre2
          have heq1 : camel ++ (c :: a).drop camel.length = c :: a :=
            List.prefix_iff_eq_append.mp hm1
          have heq2 : camel ++ (c :: b).drop camel.length = c :: b :=
            List.prefix_iff_eq_append.mp hm1b
          rw [← heq1, ← heq2, replace2_matched1 lower repl camel_ne_nil,
            replace2_matched1 lower repl camel_ne_nil]
          congr 1
          have hda : (c :: a).drop camel.length = a.drop 16 := by
            rw [e1, show (17 : ℕ) = 16 + 1 from rfl, List.drop_succ_cons]
          have hdb : (c :: b).drop camel.length = b.drop 16 := by
            rw [e1, show (17 : ℕ) = 16 + 1 from rfl, List.drop_succ_cons]
          rw [hda, hdb]
          refine ih (a.drop 16) (b.drop 16) ?_ ?_
          · have := List.length_drop 16 a
            omega
          · have h16 : camel.length - 1 = 16 := by decide
            rw [h16] at hrel2
            exact hrel2
        · by_cases hm2 : lower <+: c :: a
          · have hdrop1 : lower.drop 1 <+: a := dropOnePrefixOf hm2
            obtain ⟨hpre2, hrel2⟩ :=
              caseVar_shiftL lower (by decide) noOverlapLowerCamel rel 1 one_pos
                (by decide) hdrop1
            have hm2b : lower <+: c :: b := headConsPrefixOf hm2 hpre2
            have hm1b : ¬ camel <+: c :: b := by
              intro hp
              have hd := dropOnePrefixOf hp
              obtain ⟨hd', _⟩ :=
                caseVar_shiftR camel rfl noOverlapCamelLower rel 1 one_pos (by decide) hd
              exact hm1 (headConsPrefixOf hp hd')
            have heq1 : lower ++ (c :: a).drop lower.length = c :: a :=
              List.prefix_iff_eq_append.mp hm2
            have heq2 : lower ++ (c :: b).drop lower.length = c :: b :=
              List.prefix_iff_eq_append.mp hm2b
            rw [← heq1] at hm1
            rw [← heq2] at hm1b
            rw [← heq1, ← heq2, replace2_matched2 repl lower_ne_nil hm1,
              replace2_matched2 repl lower_ne_nil hm1b]
            congr 1
            have hda : (c :: a).drop lower.length = a.drop 16 := by
              rw [e2, show (17 : ℕ) = 16 + 1 from rfl, List.drop_succ_cons]
            have hdb : (c :: b).drop lower.length = b.drop 16 := by
              rw [e2, show (17 : ℕ) = 16 + 1 from rfl, List.drop_succ_cons]
            rw [hda, hdb]
            refine ih (a.drop 16) (b.drop 16) ?_ ?_
            · have := List.length_drop 16 a
              omega
            · have h16 : camel.length - 1 = 16 := by decide
              rw [h16] at hrel2
              exact hrel2
          · have hm1b : ¬ camel <+: c :: b := by
              intro hp
              have hd := dropOnePrefixOf hp
              obtain ⟨hd', _⟩ :=
                caseVar_shiftR camel rfl noOverlapCamelLower rel 1 one_pos (by decide) hd
              exact hm1 (headConsPrefixOf hp hd')
            have hm2b : ¬ lower <+: c :: b := by
              intro hp
              have hd := dropOnePrefixOf hp
              obtain ⟨hd', _⟩ :=
                caseVar_shiftR lower (by decide) noOverlapLowerLower rel 1 one_pos
                  (by decide) hd
              exact hm2 (headConsPrefixOf hp hd')
            rw [replace2_not_matched hm1 hm2, replace2_not_matched hm1b hm2b,
              ih a b (by omega) rel]
      | @mock a b rel =>
        simp only [List.length_append] at ht
        have hno : ¬ camel <+: lower ++ b := by
          intro hp
          rcases prefixOfAppendSplit hp with h | ⟨u2, hu2, _⟩
          · exact (by decide : ¬ camel <+: lower) h
          · have hlen2 := congrArg List.length hu2
            simp only [List.length_append] at hlen2
            have hu2nil : u2 = [] :=
              List.eq_nil_of_length_eq_zero (by omega)
            rw [hu2nil, List.append_nil] at hu2
            exact (by decide : camel ≠ lower) hu2
        rw [replace2_matched1 lower repl camel_ne_nil,
          replace2_matched2 repl lower_ne_nil hno,
          ih a b (by omega) rel]
  intro t1 t2 hcv
  exact main t1.length t1 t2 le_rfl hcv

/-! ### Claims -/

/-- C1: for every input text `T`, the script's transformation equals the
sequential composition of the two literal replacements: the camel-case
rule is applied to `T`, and the lower-case rule is applied to the result
of the first rule (sequential, not simultaneous, substitution). -/
theorem claim1_sequential_composition (T : String) :
    fixMocks T = pyReplace (pyReplace T searchCamel replacement) searchLower replacement :=
  rfl

/-- C2: for every input text `T`, the output of the script contains no
occurrence of either search string: every original occurrence is
replaced and no replacement can create a new occurrence of either search
string, including across replacement boundaries. -/
theorem claim2_no_search_string_left (T : String) :
    ¬ camel <:+: (fixMocks T).data ∧ ¬ lower <:+: (fixMocks T).data := by
  rw [fixMocks_data]
  exact ⟨fixMocks_no_camel T.data, fixMocks_no_lower T.data⟩

/-- C3: applying the two replacement rules in the script's order yields
the same output text as applying them in the opposite order: the two
search strings can never overlap each other in any text, and neither
rule's replacement creates or destroys an occurrence of the other rule's
search string. -/
theorem claim3_rule_order_commutes (T : String) :
    fixMocks T = patch T rules.reverse := by
  apply String.ext
  show replaceList lower repl (replaceList camel repl T.data)
      = replaceList camel repl (replaceList lower repl T.data)
  rw [seq_eq_replace2 camel lower repl '(' camel_ne_nil lower_ne_nil
      (by decide) (by decide) repl_head parenL_not_in_lower T.data,
    seq_eq_replace2 lower camel repl '(' lower_ne_nil camel_ne_nil
      (by decide) (by decide) repl_head parenL_not_in_camel T.data,
    replace2_swap camel lower repl (by decide) (by decide) T.data]

/-- C4: applying the script's two-rule transformation twice yields the
same text as applying it once, because the replacement string contains
neither search string and neither search string survives one pass. -/
theorem claim4_idempotent (T : String) : fixMocks (fixMocks T) = fixMocks T :=
  fixMocks_of_no_occ
    (by rw [fixMocks_data]; exact fixMocks_no_camel T.data)
    (by rw [fixMocks_data]; exact fixMocks_no_lower T.data)

/-- C5: if the target file's text contains no occurrence of either search
string, the script's transformation is the identity: the text written
back equals the text read, and the operation still succeeds. -/
theorem claim5_noop_on_clean_text (fs : String → Option String) (T : String)
    (hf : fs filepath = some T)
    (h1 : ¬ camel <:+: T.data) (h2 : ¬ lower <:+: T.data) :
    fixMocks T = T ∧
      (runScript fs).fs filepath = some T ∧ (runScript fs).ok = true := by
  have hfix : fixMocks T = T := fixMocks_of_no_occ h1 h2
  refine ⟨hfix, ?_, ?_⟩ <;> simp [runScript, hf, hfix]

/-- Witness for C5 at the concrete one-file system holding "hello". -/
theorem claim5_noop_on_clean_text_witness :
    (fun p => if p = filepath then some "hello" else none) filepath = some "hello" ∧
    ¬ camel <:+: "hello".data ∧ ¬ lower <:+: "hello".data ∧
    (fixMocks "hello" = "hello" ∧
      (runScript (fun p => if p = filepath then some "hello" else none)).fs filepath
        = some "hello" ∧
      (runScript (fun p => if p = filepath then some "hello" else none)).ok = true) :=
  ⟨by simp, by decide, by decide,
    claim5_noop_on_clean_text _ "hello" (by simp) (by decide) (by decide)⟩

/-- C6: when the file at the hardcoded path does not exist, the run fails,
nothing is printed, and the file system is left completely unchanged (no
file is created or modified). -/
theorem claim6_missing_file_fails (fs : String → Option String)
    (h : fs filepath = none) :
    runScript fs = ⟨fs, [], false⟩ := by
  simp [runScript, h]

/-- Witness for C6 at the empty file system. -/
theorem claim6_missing_file_fails_witness :
    ((fun _ => none) : String → Option String) filepath = none ∧
    runScript (fun _ => none) = ⟨(fun _ => none), [], false⟩ :=
  ⟨rfl, claim6_missing_file_fails _ rfl⟩

/-- C7: the script prints exactly the single success line when and only
when the run completes (the target file exists), independently of whether
any replacement actually occurred; on error nothing is printed. -/
theorem claim7_single_success_line (fs : String → Option String) :
    (runScript fs).stdout
        = (if (fs filepath).isSome then [successMessage] else []) ∧
      (runScript fs).ok = (fs filepath).isSome := by
  cases h : fs filepath <;> simp [runScript, h]

/-- C8: on success the script's only file-system effect is at the single
hardcoded path, whose prior content is fully overwritten with the
transformed text; every other path is untouched. -/
theorem claim8_frame_effect (fs : String → Option String) (c : String)
    (h : fs filepath = some c) :
    (runScript fs).fs filepath = some (fixMocks c) ∧
    ∀ p, p ≠ filepath → (runScript fs).fs p = fs p := by
  constructor
  · simp [runScript, h]
  · intro p hp
    simp [runScript, h, hp]

/-- Witness for C8 at a concrete one-file system. -/
theorem claim8_frame_effect_witness :
    (fun p => if p = filepath then some "x" else none) filepath = some "x" ∧
    ((runScript (fun p => if p = filepath then some "x" else none)).fs filepath
        = some (fixMocks "x") ∧
      ∀ p, p ≠ filepath →
        (runScript (fun p => if p = filepath then some "x" else none)).fs p
          = (fun p => if p = filepath then some "x" else none) p) :=
  ⟨by simp, claim8_frame_effect _ "x" (by simp)⟩

/-- C9: the run is deterministic and depends only on the content stored at
the hardcoded path: two file systems agreeing there produce the same
output line, the same success flag, and the same final content of the
target file.  The model has no other input (no command-line arguments, no
environment). -/
theorem claim9_deterministic (fs1 fs2 : String → Option String)
    (h : fs1 filepath = fs2 filepath) :
    (runScript fs1).stdout = (runScript fs2).stdout ∧
    (runScript fs1).ok = (runScript fs2).ok ∧
    (runScript fs1).fs filepath = (runScript fs2).fs filepath := by
  cases h2 : fs2 filepath with
  | none =>
    have h1 : fs1 filepath = none := by rw [h, h2]
    simp [runScript, h1, h2]
  | some c =>
    have h1 : fs1 filepath = some c := by rw [h, h2]
    simp [runScript, h1, h2]

/-- Witness for C9 at two concrete file systems agreeing on the target. -/
theorem claim9_deterministic_witness :
    ((fun _ => some "x") : String → Option String) filepath
        = (fun p => if p = filepath then some "x" else none) filepath ∧
    ((runScript (fun _ => some "x")).stdout
        = (runScript (fun p => if p = filepath then some "x" else none)).stdout ∧
      (runScript (fun _ => some "x")).ok
        = (runScript (fun p => if p = filepath then some "x" else none)).ok ∧
      (runScript (fun _ => some "x")).fs filepath
        = (runScript (fun p => if p = filepath then some "x" else none)).fs filepath) :=
  ⟨by simp, claim9_deterministic _ _ (by simp)⟩

/-- Bridging lemma: the script's two sequential passes coincide with the
simultaneous two-pattern pass (instantiation of `seq_eq_replace2` at the
script's literals). -/
lemma fixMocks_eq_replace2 (t : List Char) :
    replaceList lower repl (replaceList camel repl t)
      = replace2 camel lower repl t :=
  seq_eq_replace2 camel lower repl '(' camel_ne_nil lower_ne_nil
    (by decide) (by decide) repl_head parenL_not_in_lower t

/-- C10: for any two input texts that are identical except that some
occurrences of the camel-case search string in the first are written as
the lower-case search string in the second (at the same positions), the
script produces the same output text, because both rules map to the same
replacement string. -/
theorem claim10_case_variant_invariance (T1 T2 : String)
    (h : CaseVar T1.data T2.data) : fixMocks T1 = fixMocks T2 := by
  apply String.ext
  rw [fixMocks_data, fixMocks_data, fixMocks_eq_replace2, fixMocks_eq_replace2,
    caseVar_replace2 h]

/-- Witness for C10 at the two search strings themselves. -/
theorem claim10_case_variant_invariance_witness :
    CaseVar searchCamel.data searchLower.data ∧
      fixMocks searchCamel = fixMocks searchLower := by
  have hcv : CaseVar searchCamel.data searchLower.data := by
    have h0 := CaseVar.mock CaseVar.nil
    simpa using h0
  exact ⟨hcv, claim10_case_variant_invariance _ _ hcv⟩

end FixMocks
